import Mathlib

/-!
Verification of the MCTS core of the imm-cee-tee-ess chess engine.

This file gives a shallow embedding, in Lean 4, of the parts of the engine
that the specification claims speak about:

* the node data model (src/node.rs),
* the transposition hash table (src/hashtable.rs),
* the stop predicate (src/search.rs),
* draw / loss detection on historized boards (src/historized_board.rs),
* PUCT child selection, backup, and tree reuse (src/arena.rs),
* the hand-crafted policy softmax (src/policy.rs).

Machine floats (f32) are embedded as real numbers, machine integers as Nat or
Int with explicit wrapping where it matters.  The board itself is treated as
an opaque value, exactly as the specification prescribes: the embedding keeps
only the observations the embedded code consumes (legal-move list, check flag,
zobrist hash, half-move counter), or quantifies over an arbitrary board type
where only equality and make_move are consumed (tree reuse).
-/

namespace Engine

/-- Moves are an opaque 16-bit encoding in the source; the embedded code never
inspects a move, so we model a move as a bare natural number.  The null move
sentinel is 0. -/
abbrev Move := Nat

/-- Null move sentinel (Move::NULL in the source). -/
def Move.NULL : Move := 0

/-- GameState from src/node.rs. -/
inductive GameState : Type where
  | Won : GameState
  | Draw : GameState
  | Lost : GameState
  | Ongoing : GameState
  deriving DecidableEq

/-- GameState::evaluate from src/node.rs: Won = 1, Draw = 0.5, Lost = 0,
Ongoing = undefined (None). -/
noncomputable def GameState.evaluate : GameState → Option ℝ
  | .Won => some 1
  | .Draw => some (1 / 2)
  | .Lost => some 0
  | .Ongoing => none

/-- GameState::is_terminal from src/node.rs: any state other than Ongoing. -/
def GameState.is_terminal (g : GameState) : Bool :=
  decide (g ≠ GameState.Ongoing)

/-- Node from src/node.rs.  Fields mirror the Rust struct; f32 becomes ℝ and
the i32 visit counter becomes ℤ.  (The LRU-list revision of the arena stores
three extra intrusive pointers, prev / next / parent, which carry no search
statistics and are not needed by any claim.) -/
structure Node where
  game_state : GameState
  first_child : Option Nat
  num_children : Nat
  m : Move
  policy : ℝ
  visits : ℤ
  total_score : ℝ

/-- Default node, as produced by the derived Default implementation in Rust. -/
instance : Inhabited Node :=
  ⟨⟨GameState.Ongoing, none, 0, Move.NULL, 0, 0, 0⟩⟩

/-- Node::new from src/node.rs: fresh statistics, no children. -/
def Node.new (game_state : GameState) (m : Move) (policy : ℝ) : Node :=
  ⟨game_state, none, 0, m, policy, 0, 0⟩

/-- Node::is_terminal from src/node.rs. -/
def Node.is_terminal (n : Node) : Bool :=
  n.game_state.is_terminal

/-- Node::evaluate from src/node.rs. -/
noncomputable def Node.evaluate (n : Node) : Option ℝ :=
  n.game_state.evaluate

/-- Node::should_expand from src/node.rs: ongoing and childless. -/
def Node.should_expand (n : Node) : Bool :=
  decide (n.game_state = GameState.Ongoing) && decide (n.num_children = 0)

/-- Node::has_children from src/node.rs. -/
def Node.has_children (n : Node) : Bool :=
  decide (0 < n.num_children) && n.first_child.isSome

/-- Node::children from src/node.rs: the contiguous child block
first_child .. first_child + num_children, or empty when first_child is None. -/
def Node.children (n : Node) : List Nat :=
  match n.first_child with
  | some fc => List.range' fc n.num_children
  | none => []

/-- Node::expand from src/node.rs: record the freshly allocated child block. -/
def Node.expand (n : Node) (first_child : Nat) (num_children : Nat) : Node :=
  { n with first_child := some first_child, num_children := num_children }

/-- Node::make_root from src/node.rs: null the incoming move, set policy 1. -/
def Node.make_root (n : Node) : Node :=
  { n with m := Move.NULL, policy := 1 }

/-- Node::set_game_state from src/node.rs. -/
def Node.set_game_state (n : Node) (game_state : GameState) : Node :=
  { n with game_state := game_state }

/-- Node::q from src/node.rs: mean backed-up score.  The source asserts
visits ≠ 0; the embedding is total (division by zero yields 0 in ℝ) and
every statement that consumes q guards it by visits > 0. -/
noncomputable def Node.q (n : Node) : ℝ :=
  n.total_score / (n.visits : ℝ)

/-- Node::update_stats from src/node.rs. -/
def Node.update_stats (n : Node) (u : ℝ) : Node :=
  { n with visits := n.visits + 1, total_score := n.total_score + u }

/-! ## Transposition hash table (src/hashtable.rs)

The table in src/hashtable.rs stores an i32 payload; the tree-search revision
used by src/arena.rs stores the f32 leaf value.  The indexing and collision
logic is identical, so the embedding is polymorphic in the payload type. -/
/-- TableEntry from src/hashtable.rs: low 16 bits of the hash plus payload. -/
structure TableEntry (α : Type) where
  key : Nat
  ptr : α
  deriving DecidableEq

instance [Inhabited α] : Inhabited (TableEntry α) :=
  ⟨⟨0, default⟩⟩

/-- HashTable from src/hashtable.rs: a fixed-capacity slice of entries. -/
structure HashTable (α : Type) where
  data : List (TableEntry α)

/-- Function index from src/hashtable.rs: multiply-high slot selection,
((hash as u128) * (capacity as u128)) >> 64. -/
def index (hash : Nat) (table_capacity : Nat) : Nat :=
  hash * table_capacity / 2 ^ 64

/-- HashTable::probe from src/hashtable.rs.  The Rust slice access panics out
of bounds; that is unreachable for a nonempty table (claim C10), and the
embedding returns a miss there. -/
def HashTable.probe (t : HashTable α) (hash : Nat) : Option α :=
  match t.data[index hash t.data.length]? with
  | some entry => if entry.key = hash % 2 ^ 16 then some entry.ptr else none
  | none => none

/-- HashTable::insert from src/hashtable.rs: unconditional overwrite of the
selected slot. -/
def HashTable.insert (t : HashTable α) (hash : Nat) (v : α) : HashTable α :=
  ⟨t.data.set (index hash t.data.length) ⟨hash % 2 ^ 16, v⟩⟩

/-! ## Stop predicate (src/search.rs)

The SearchType revision consumed by src/arena.rs and src/uci.rs is the one in
src/search.rs: Depth carries an extra node cap, and should_stop takes
(nodes, search_start, depth).  The Time branch consults the wall clock through
Clock::soft_termination; wall-clock time is not embeddable, so the boolean
result of that call is passed in as the soft_termination argument.  The Mate
branch executes the todo! macro, i.e. panics: the embedding returns none for
it and some b for every branch that returns the boolean b. -/
/-- SearchType from src/search.rs. -/
inductive SearchType : Type where
  | Depth : Nat → Nat → SearchType
  | Time : SearchType
  | Nodes : Nat → SearchType
  | Mate : Int → SearchType
  | Infinite : SearchType

/-- SearchType::should_stop from src/search.rs. -/
def SearchType.should_stop (st : SearchType) (nodes : Nat) (soft_termination : Bool)
    (depth : Nat) : Option Bool :=
  match st with
  | .Depth d n => some (decide (depth > d) || decide (nodes ≥ n))
  | .Time => some soft_termination
  | .Nodes n => some (decide (nodes ≥ n))
  | .Mate _ => none
  | .Infinite => some false

/-! ## Historized board (src/historized_board.rs)

The board proper is opaque to the claims: game_state consumes only the
half-move counter, the zobrist hash, the check flag and the legal-move list,
so the embedding records exactly those observations.  The hash history list
is maintained by make_move, which pushes the hash of the position reached by
the move, so on every board reached through make_move the last element of
hashes is the hash of the current position. -/
/-- Observations of the opaque Board value that game_state consumes. -/
structure BoardObs where
  half_moves : Nat
  zobrist_hash : Nat
  in_check : Bool
  legal_moves : List Move
  deriving DecidableEq

/-- HistorizedBoard from src/historized_board.rs: board plus hash history. -/
structure HistorizedBoard where
  board : BoardObs
  hashes : List Nat
  deriving DecidableEq

/-- HistorizedBoard::hash from src/historized_board.rs. -/
def HistorizedBoard.hash (hb : HistorizedBoard) : Nat :=
  hb.board.zobrist_hash

/-- HistorizedBoard::is_3x_repetition from src/historized_board.rs: false for
fewer than 6 recorded hashes, otherwise true when any of the last
half_moves + 1 recorded hashes equals the current hash. -/
def HistorizedBoard.is_3x_repetition (hb : HistorizedBoard) : Bool :=
  if hb.hashes.length < 6 then false
  else (hb.hashes.reverse.take (hb.board.half_moves + 1)).any
    (fun h => decide (h = hb.hash))

/-- HistorizedBoard::game_state from src/historized_board.rs. -/
def HistorizedBoard.game_state (hb : HistorizedBoard) : GameState :=
  if decide (hb.board.half_moves ≥ 100) || hb.is_3x_repetition then GameState.Draw
  else if !hb.board.legal_moves.isEmpty then GameState.Ongoing
  else if hb.board.in_check then GameState.Lost
  else GameState.Draw

/-- Failing input for claim C5: a historized board six quiet plies deep whose
six recorded hashes are pairwise distinct (no position ever repeated), with
legal moves available and the fifty-move counter far from 100.  The source
nevertheless reports Draw, because is_3x_repetition compares the current hash
against a history that contains the current position itself. -/
def c5FailingBoard : HistorizedBoard :=
  ⟨⟨6, 6, false, [17]⟩, [1, 2, 3, 4, 5, 6]⟩

/-! ## Backup (src/arena.rs, Arena::playout, lines 326-333)

The playout records a path of (arena pointer, zobrist hash, move) entries,
root first, and then walks it in reverse: at each entry it inserts the current
value into the transposition cache under the recorded hash, flips the value,
and adds the flipped value to that node's statistics.  The loop also touches
the LRU recency list (move_to_front) and asserts that the recorded move equals
the node's stored move; neither affects statistics or cache contents, so the
embedding omits them. -/
/-- PathEntry from src/arena.rs. -/
structure PathEntry where
  ptr : Nat
  hash : Nat
  m : Move

/-- Mutable search state touched by the backup loop: the node slots and the
transposition cache. -/
structure TreeState where
  node_list : List Node
  hash_table : HashTable ℝ

/-- Indexed in-place node mutation, self[ptr].f(...) in the source.  Out of
bounds the Rust indexing would panic; the embedding leaves the list unchanged
and every theorem keeps indices in bounds. -/
def updateNodeAt (nl : List Node) (i : Nat) (f : Node → Node) : List Node :=
  nl.set i (f (nl.getD i default))

/-- Backup loop body from Arena::playout, operating on the leaf-first
(already reversed) path: insert the pre-flip value under the recorded hash,
flip, update the node statistics with the flipped value, recurse. -/
def backup : TreeState → List PathEntry → ℝ → TreeState
  | s, [], _ => s
  | s, e :: rest, u =>
      backup
        ⟨updateNodeAt s.node_list e.ptr (fun n => n.update_stats (1 - u)),
         s.hash_table.insert e.hash u⟩
        rest (1 - u)

/-- Backup phase of one playout: the source iterates path.into_iter().rev(). -/
def backup_phase (s : TreeState) (path : List PathEntry) (u : ℝ) : TreeState :=
  backup s path.reverse u

/-- Value flipping iterated k times, u, 1 - u, u, ... starting at the leaf. -/
def flip_iter : Nat → ℝ → ℝ
  | 0, u => u
  | k + 1, u => flip_iter k (1 - u)

/-- Specification bundle for one playout's backup, exactly the narrative of
claim C2: indexing the path from the leaf (k = 0 is the leaf), the k-th path
node's visits grow by exactly 1 and its total_score by the (k+1)-times-flipped
leaf value, the cache under the k-th recorded hash holds the k-times-flipped
leaf value, and every node outside the path is untouched. -/
def BackupSpec (s : TreeState) (path : List PathEntry) (u : ℝ) : Prop :=
  (∀ i : Nat, i ∉ path.map PathEntry.ptr →
      (backup_phase s path u).node_list.getD i default =
        s.node_list.getD i default) ∧
  ∀ k : Nat, ∀ hk : k < path.reverse.length,
      ((backup_phase s path u).node_list.getD
            (path.reverse.get ⟨k, hk⟩).ptr default).visits =
          (s.node_list.getD (path.reverse.get ⟨k, hk⟩).ptr default).visits + 1 ∧
      ((backup_phase s path u).node_list.getD
            (path.reverse.get ⟨k, hk⟩).ptr default).total_score =
          (s.node_list.getD (path.reverse.get ⟨k, hk⟩).ptr default).total_score +
            flip_iter (k + 1) u ∧
      (backup_phase s path u).hash_table.probe (path.reverse.get ⟨k, hk⟩).hash =
        some (flip_iter k u)

/-- Invariant of claim C7 on a single node: visits nonnegative, total score
within [0, visits], and zero score at zero visits. -/
def NodeInv (n : Node) : Prop :=
  0 ≤ n.visits ∧ 0 ≤ n.total_score ∧ n.total_score ≤ (n.visits : ℝ) ∧
    (n.visits = 0 → n.total_score = 0)

/-! ## PUCT child selection (src/arena.rs, Arena::select_action)

select_action scores every child with the PUCT formula and takes the maximum
with Iterator::max_by.  Rust's max_by keeps the accumulator only when it
compares strictly greater than the next element, so among equal maxima the
LAST element in iteration order wins.  f32 comparison is embedded as the
(total) order on ℝ; the source's partial_cmp(..).unwrap() panics only on NaN,
which has no counterpart in ℝ. -/
/-- CPUCT from src/arena.rs: the square root of 2. -/
noncomputable def CPUCT : ℝ := Real.sqrt 2

open Classical

/-- Iterator::max_by over real-valued keys: None on an empty list, otherwise
a left fold that keeps the accumulator only on a strictly greater key, so
ties go to the later element. -/
noncomputable def max_by (f : α → ℝ) : List α → Option α
  | [] => none
  | x :: xs => some (xs.foldl (fun acc y => if f acc > f y then acc else y) x)

/-- Per-child PUCT score from Arena::select_action: Q (or first-play urgency
1 - parent_Q for an unvisited child) plus
CPUCT * policy * sqrt(parent visits) / (1 + child visits). -/
noncomputable def puct (parent child : Node) : ℝ :=
  (if child.visits = 0
    then 1 - parent.total_score / (parent.visits : ℝ)
    else child.q) +
    CPUCT * child.policy * Real.sqrt (parent.visits : ℝ) / (1 + (child.visits : ℝ))

/-- Arena::select_action from src/arena.rs: argmax of the PUCT score over the
parent's child block. -/
noncomputable def select_action (nl : List Node) (ptr : Nat) : Option Nat :=
  max_by (fun c => puct (nl.getD ptr default) (nl.getD c default))
    (nl.getD ptr default).children

/-- Property proved about select_action: it returns the child attaining the
maximal PUCT score, and among tied children the LAST one in child-block
order (the claim as stated says the first). -/
def SelectsLastArgmax (nl : List Node) (ptr : Nat) : Prop :=
  ∃ r, select_action nl ptr = some r ∧
    ∃ l1 l2, (nl.getD ptr default).children = l1 ++ r :: l2 ∧
      (∀ c ∈ (nl.getD ptr default).children,
          puct (nl.getD ptr default) (nl.getD c default) ≤
            puct (nl.getD ptr default) (nl.getD r default)) ∧
      ∀ c ∈ l2,
          puct (nl.getD ptr default) (nl.getD c default) <
            puct (nl.getD ptr default) (nl.getD r default)

/-- Concrete arena refuting the tie-break direction of claim C1 as stated:
slot 0 is a parent with one visit and the two children in slots 1 and 2 hold
identical records, so their PUCT scores tie; the source selects slot 2, the
last, not slot 1, the first. -/
def c1Nodes : List Node :=
  [⟨GameState.Ongoing, some 1, 2, Move.NULL, 1, 1, 0⟩,
   Node.new GameState.Ongoing 3 1,
   Node.new GameState.Ongoing 4 1]

/-! ## Hand-crafted policy (src/policy.rs)

policies() walks the legal moves once, pairing each with the raw score
1 / legal_count + 0.05 * see(m, -100) + 0.05 * see(m, 1), accumulating the
sum of the exponentials, then normalizes each exponential by the sum.  The
static-exchange-evaluation predicate Board::see is consumed opaquely (its
body lives in the see module, absent from the sources), so the embedding
takes it as a function parameter; the board itself is represented by its
legal-move list, the only other observation policies() makes.  The f32
constant 0.05 is embedded as the intended real 5/100. -/
/-- Raw per-move policy score from src/policy.rs. -/
noncomputable def raw_policy (legal_moves : List Move) (see : Move → ℤ → Bool)
    (m : Move) : ℝ :=
  1 / (legal_moves.length : ℝ) +
    5 / 100 * (if see m (-100) then (1 : ℝ) else 0) +
    5 / 100 * (if see m 1 then (1 : ℝ) else 0)

/-- Board::policies from src/policy.rs: softmax of the raw scores over the
legal moves. -/
noncomputable def policies (legal_moves : List Move) (see : Move → ℤ → Bool) :
    List (Move × ℝ) :=
  legal_moves.map fun m =>
    (m, Real.exp (raw_policy legal_moves see m) /
        (legal_moves.map fun m2 => Real.exp (raw_policy legal_moves see m2)).sum)

/-- Softmax over the raw score claimed by the specification,
see(m, -100) + see(m, 1) with unit weights and no uniform term; defined from
the claim's words, for comparison against the source embedding. -/
noncomputable def policiesSpec (legal_moves : List Move) (see : Move → ℤ → Bool) :
    List (Move × ℝ) :=
  legal_moves.map fun m =>
    (m, Real.exp ((if see m (-100) then (1 : ℝ) else 0) +
          (if see m 1 then (1 : ℝ) else 0)) /
        (legal_moves.map fun m2 =>
          Real.exp ((if see m2 (-100) then (1 : ℝ) else 0) +
            (if see m2 1 then (1 : ℝ) else 0))).sum)

/-- Property proved about policies: one entry per legal move in order, each
probability is the softmax of the source's raw score, and the probabilities
sum to 1 in exact arithmetic. -/
def PoliciesCorrect (legal_moves : List Move) (see : Move → ℤ → Bool) : Prop :=
  ((policies legal_moves see).map Prod.fst = legal_moves) ∧
    (∀ k, ∀ hk : k < legal_moves.length,
      (policies legal_moves see).getD k (0, 0) =
        (legal_moves.get ⟨k, hk⟩,
          Real.exp (raw_policy legal_moves see (legal_moves.get ⟨k, hk⟩)) /
            (legal_moves.map fun m2 =>
              Real.exp (raw_policy legal_moves see m2)).sum)) ∧
    ((policies legal_moves see).map Prod.snd).sum = 1

/-- See predicate used by the C3 counterexample: move 0 wins both SEE tests,
move 1 neither. -/
def c3See : Move → ℤ → Bool := fun m _ => decide (m = 0)

/-! ## Terminal nodes and the descent loop (claim C4)

In Arena::playout the descent loop first breaks on a terminal, unvisited, or
path-saturated node, and otherwise expands the node exactly when
Node::should_expand holds; Arena::expand moreover asserts the node is not
terminal.  Arena::start_search however ends its root installation with
self[root].set_game_state(GameState::Ongoing), erasing a terminal state on
the root. -/
/-- Effect of one descent-loop iteration of Arena::playout on the visited
node's record: break (no change) on terminal / unvisited / full path, expand
when should_expand, otherwise no change. -/
def descent_expand (n : Node) (path_full : Bool)
    (first_child num_children : Nat) : Node :=
  if n.is_terminal || decide (n.visits = 0) || path_full then n
  else if n.should_expand then n.expand first_child num_children
  else n

/-! ## Tree reuse (src/arena.rs, Arena::reuse_tree and Arena::start_search)

reuse_tree scans the visited children of the current root and their visited
children; for the first grandchild whose two-move reconstruction from the
previously searched position equals the new position it asserts
visits > 0 && has_children and returns it.  start_search then either promotes
that node to root (Node::make_root: move nulled, policy 1) or, on a miss,
resets the whole arena and inserts a fresh root; reset rebuilds the LRU free
list with slot 0 at its tail, so the fresh root lands in slot 0.  Finally
start_search overwrites the root's game_state with Ongoing.

The Board is opaque here exactly as in the specification: the embedding is
generic over the board type, consuming only equality (the source compares
HistorizedBoard by full Board comparison) and make_move. -/
/-- Arena state consumed by tree reuse. -/
structure ReuseArena (Board : Type) where
  node_list : List Node
  root : Option Nat
  previous_board : Option Board

/-- Node lookup self[i] on the reuse arena. -/
def ReuseArena.node (a : ReuseArena Board) (i : Nat) : Node :=
  a.node_list.getD i default

/-- Nested first-match scan of Arena::reuse_tree: visited children of the
root, then visited children of each, first grandchild whose two-move
reconstruction equals the searched board. -/
def reuse_scan [DecidableEq Board] (make_move : Board → Move → Board)
    (a : ReuseArena Board) (prev board : Board) (root : Nat) : Option Nat :=
  ((a.node root).children.filter fun c => decide (0 < (a.node c).visits)).findSome?
    fun c1 =>
      ((a.node c1).children.filter fun c => decide (0 < (a.node c).visits)).find?
        fun c2 =>
          decide (make_move (make_move prev (a.node c1).m) (a.node c2).m = board)

/-- Arena::reuse_tree from src/arena.rs.  Except.error models the source's
assertion failing (the matched grandchild, though visited, has no children);
ok none is a miss; ok (some i) a hit. -/
def reuse_tree [DecidableEq Board] (make_move : Board → Move → Board)
    (a : ReuseArena Board) (board : Board) : Except Unit (Option Nat) :=
  match a.previous_board with
  | none => .ok none
  | some prev =>
    match a.root with
    | none => .ok none
    | some root =>
      match reuse_scan make_move a prev board root with
      | none => .ok none
      | some c2 =>
          if (a.node c2).has_children then .ok (some c2) else .error ()

/-- Arena::reset followed by the fresh-root insert of Arena::start_search:
all slots zeroed, the fresh root (game state latched from the position, null
move, policy 1) in slot 0. -/
def reset_fresh (game_state_of : Board → GameState) (a : ReuseArena Board)
    (board : Board) : ReuseArena Board :=
  { node_list := (List.replicate a.node_list.length default).set 0
      (Node.new (game_state_of board) Move.NULL 1),
    root := some 0,
    previous_board := a.previous_board }

/-- Root installation of Arena::start_search: try reuse, promote the hit
(make_root, root pointer moved) or reset-and-insert on a miss, then
overwrite the new root's game_state with Ongoing. -/
def start_search_root [DecidableEq Board] (make_move : Board → Move → Board)
    (game_state_of : Board → GameState) (a : ReuseArena Board) (board : Board) :
    Except Unit (ReuseArena Board) :=
  match reuse_tree make_move a board with
  | .error e => .error e
  | .ok r =>
    let a2 : ReuseArena Board :=
      match r with
      | some new_root =>
          if !(a.node new_root).has_children then
            reset_fresh game_state_of a board
          else if some new_root ≠ a.root then
            { a with
              node_list := updateNodeAt a.node_list new_root Node.make_root,
              root := some new_root }
          else a
      | none => reset_fresh game_state_of a board
    .ok { a2 with node_list :=
      match a2.root with
      | some r2 =>
          updateNodeAt a2.node_list r2 fun n =>
            n.set_game_state GameState.Ongoing
      | none => a2.node_list }

/-- Behavior bundle proved for tree reuse (the amended claim C6): reuse
misses exactly when no visited grandchild reconstructs the position; a hit
on a grandchild that has children promotes it — it becomes the root with
null move, policy 1, its visits and total_score preserved and every other
node untouched; a miss clears the tree and installs a fresh root in slot 0;
and a hit on a childless grandchild trips the source's assertion (the search
aborts) instead of promoting. -/
def ReuseBehavior [DecidableEq Board] (make_move : Board → Move → Board)
    (game_state_of : Board → GameState) (a : ReuseArena Board)
    (board prev : Board) (root : Nat) : Prop :=
  (reuse_tree make_move a board = Except.ok none ↔
      ∀ c1 ∈ (a.node root).children, 0 < (a.node c1).visits →
        ∀ c2 ∈ (a.node c1).children, 0 < (a.node c2).visits →
          make_move (make_move prev (a.node c1).m) (a.node c2).m ≠ board) ∧
  (∀ c2, reuse_tree make_move a board = Except.ok (some c2) → c2 ≠ root →
      c2 < a.node_list.length →
      ∃ a3, start_search_root make_move game_state_of a board = Except.ok a3 ∧
        a3.root = some c2 ∧
        (a3.node c2).m = Move.NULL ∧ (a3.node c2).policy = 1 ∧
        (a3.node c2).visits = (a.node c2).visits ∧
        (a3.node c2).total_score = (a.node c2).total_score ∧
        ∀ i, i ≠ c2 → a3.node i = a.node i) ∧
  (reuse_tree make_move a board = Except.ok none →
      ∃ a3, start_search_root make_move game_state_of a board = Except.ok a3 ∧
        a3.root = some 0 ∧
        (a3.node 0).visits = 0 ∧ (a3.node 0).total_score = 0 ∧
        (a3.node 0).m = Move.NULL ∧ (a3.node 0).policy = 1 ∧
        (a3.node 0).first_child = none ∧
        a3.node_list.length = a.node_list.length ∧
        ∀ i, i ≠ 0 → a3.node i = default) ∧
  ∀ c2, reuse_scan make_move a prev board root = some c2 →
      (a.node c2).has_children = false →
      reuse_tree make_move a board = Except.error ()

/-- Concrete three-node arena for claim C6: a previously searched position 0
(boards are bare naturals here, make_move is addition), root in slot 0 with
the visited child slot 1 (move 1), which has the visited grandchild slot 2
(move 2); slot 2 was visited once and never expanded, so it has no children.
Searching position 0 + 1 + 2 = 3 matches that grandchild. -/
def c6Arena : ReuseArena Nat :=
  ⟨[⟨GameState.Ongoing, some 1, 1, Move.NULL, 1, 2, 1⟩,
    ⟨GameState.Ongoing, some 2, 1, 1, 1, 1, 1⟩,
    ⟨GameState.Ongoing, none, 0, 2, 1, 1, 1⟩],
   some 0, some 0⟩

/-! ## Theorems for claims C10, C9, C8, C5 -/
/-- Claim C10: for every 64-bit hash h and table capacity c with
0 < c ≤ 2 ^ 64, the multiply-high slot index is strictly below c, so probe
and insert never access the entry slice out of bounds. -/
theorem c10_index_in_bounds (h c : Nat) (hh : h < 2 ^ 64) (hc : 0 < c)
    (hc64 : c ≤ 2 ^ 64) :
    index h c < c ∧
      ∀ (α : Type) (t : HashTable α), t.data.length = c →
        t.data[index h c]? ≠ none := by
  have hidx : index h c < c := by
    unfold index
    have h2 : (0 : Nat) < 2 ^ 64 := by positivity
    rw [Nat.div_lt_iff_lt_mul h2]
    calc h * c < 2 ^ 64 * c := (Nat.mul_lt_mul_right hc).mpr hh
      _ = c * 2 ^ 64 := Nat.mul_comm _ _
  refine ⟨hidx, ?_⟩
  intro α t hlen
  rw [Ne, List.getElem?_eq_none_iff, hlen]
  omega

/-- Witness for C10 at a concrete hash and capacity. -/
theorem c10_index_in_bounds_witness :
    index 3 5 < 5 ∧
      ∀ (α : Type) (t : HashTable α), t.data.length = 5 →
        t.data[index 3 5]? ≠ none :=
  c10_index_in_bounds 3 5 (by decide) (by decide) (by decide)

/-- Length is preserved by insertion. -/
theorem HashTable.length_insert (t : HashTable α) (h : Nat) (v : α) :
    (t.insert h v).data.length = t.data.length := by
  simp [HashTable.insert]

/-- Claim C9: probing a hash immediately after inserting it returns the
inserted value; a second insert that maps to the same slot unconditionally
replaces the entry, after which probing the earlier hash yields the new value
when the two hashes agree on their low 16 bits and a miss otherwise — in
particular it can return a stored value only when the low 16 bits agree. -/
theorem c9_probe_insert (α : Type) (t : HashTable α) (h : Nat) (v : α)
    (hlen : 0 < t.data.length) (hh : h < 2 ^ 64) (hcap : t.data.length ≤ 2 ^ 64) :
    (t.insert h v).probe h = some v ∧
      ∀ (h2 : Nat) (v2 : α),
        index h2 t.data.length = index h t.data.length →
          ((t.insert h v).insert h2 v2).data[index h t.data.length]? =
              some ⟨h2 % 2 ^ 16, v2⟩ ∧
            ((t.insert h v).insert h2 v2).probe h =
              (if h2 % 2 ^ 16 = h % 2 ^ 16 then some v2 else none) := by
  have hidx : index h t.data.length < t.data.length :=
    (c10_index_in_bounds h t.data.length hh hlen hcap).1
  constructor
  · unfold HashTable.probe HashTable.insert
    simp only [List.length_set]
    rw [List.getElem?_set_eq_of_lt _ hidx]
    simp
  · intro h2 v2 hsame
    have hstep : ((t.insert h v).insert h2 v2).data =
        (t.insert h v).data.set (index h t.data.length) ⟨h2 % 2 ^ 16, v2⟩ := by
      unfold HashTable.insert
      simp only [List.length_set, HashTable.length_insert]
      rw [hsame]
    have hget : ((t.insert h v).insert h2 v2).data[index h t.data.length]? =
        some ⟨h2 % 2 ^ 16, v2⟩ := by
      rw [hstep]
      rw [List.getElem?_set_eq_of_lt]
      simpa [HashTable.insert] using hidx
    refine ⟨hget, ?_⟩
    have hlen2 : ((t.insert h v).insert h2 v2).data.length = t.data.length := by
      rw [hstep]
      simp [HashTable.insert]
    unfold HashTable.probe
    rw [hlen2, hget]

/-- Witness for C9: a one-slot integer table. -/
theorem c9_probe_insert_witness :
    ((⟨[⟨0, (0 : ℤ)⟩]⟩ : HashTable ℤ).insert 7 5).probe 7 = some 5 ∧
      ∀ (h2 : Nat) (v2 : ℤ),
        index h2 1 = index 7 1 →
          (((⟨[⟨0, (0 : ℤ)⟩]⟩ : HashTable ℤ).insert 7 5).insert h2 v2).data[index 7 1]? =
              some ⟨h2 % 2 ^ 16, v2⟩ ∧
            (((⟨[⟨0, (0 : ℤ)⟩]⟩ : HashTable ℤ).insert 7 5).insert h2 v2).probe 7 =
              (if h2 % 2 ^ 16 = 7 % 2 ^ 16 then some v2 else none) :=
  c9_probe_insert ℤ ⟨[⟨0, (0 : ℤ)⟩]⟩ 7 5 (by decide) (by decide) (by decide)

/-- Counterexample to claim C8 as stated: with a Depth(5, N) search, average
depth exactly 5 does not fire the stop predicate (the source tests
depth > d, not depth ≥ d). -/
theorem c8_counterexample :
    SearchType.should_stop (.Depth 5 1000000) 0 false 5 = some false := by
  decide

/-- Claim C8 (amended): Depth(d, N) fires exactly when the average depth
strictly exceeds d or the node count has reached N; Nodes(N) fires exactly
when the node count has reached N; Infinite never fires; Time fires exactly
when the clock reports soft termination; Mate panics (unimplemented), modeled
as none. -/
theorem c8_should_stop_amended :
    ∀ (d n nodes depth : Nat) (soft : Bool) (p : Int),
      (SearchType.should_stop (.Depth d n) nodes soft depth = some true ↔
        (d < depth ∨ n ≤ nodes)) ∧
      (SearchType.should_stop (.Nodes n) nodes soft depth = some true ↔ n ≤ nodes) ∧
      SearchType.should_stop .Infinite nodes soft depth = some false ∧
      SearchType.should_stop (.Mate p) nodes soft depth = none ∧
      SearchType.should_stop .Time nodes soft depth = some soft := by
  intro d n nodes depth soft p
  refine ⟨?_, ?_, rfl, rfl, rfl⟩
  · simp only [SearchType.should_stop, Option.some_inj, Bool.or_eq_true,
      decide_eq_true_eq, gt_iff_lt, ge_iff_le]
  · simp only [SearchType.should_stop, Option.some_inj, decide_eq_true_eq, ge_iff_le]

/-- Claim C5 evaluation at the failing input: the code returns Draw although
no hash occurs even twice in the history, legal moves exist, and the
fifty-move counter is 6.  The specified result is Ongoing. -/
theorem c5_game_state_code_bug :
    c5FailingBoard.game_state = GameState.Draw ∧
      c5FailingBoard.board.half_moves < 100 ∧
      (∀ h ∈ c5FailingBoard.hashes, c5FailingBoard.hashes.count h = 1) ∧
      c5FailingBoard.board.legal_moves ≠ [] ∧
      c5FailingBoard.board.in_check = false := by
  decide

/-- Node slots count is preserved by the backup loop. -/
theorem backup_node_list_length (l : List PathEntry) :
    ∀ (s : TreeState) (u : ℝ),
      (backup s l u).node_list.length = s.node_list.length := by
  induction l with
  | nil => intro s u; rfl
  | cons e rest ih =>
      intro s u
      simp only [backup]
      rw [ih]
      simp [updateNodeAt]

/-- Cache capacity is preserved by the backup loop. -/
theorem backup_hash_table_length (l : List PathEntry) :
    ∀ (s : TreeState) (u : ℝ),
      (backup s l u).hash_table.data.length = s.hash_table.data.length := by
  induction l with
  | nil => intro s u; rfl
  | cons e rest ih =>
      intro s u
      simp only [backup]
      rw [ih]
      simp [HashTable.insert]

/-- Reading back the written slot right after updateNodeAt. -/
theorem getD_updateNodeAt_self (nl : List Node) (i : Nat) (f : Node → Node)
    (h : i < nl.length) :
    (updateNodeAt nl i f).getD i default = f (nl.getD i default) := by
  unfold updateNodeAt
  rw [List.getD_eq_getElem?_getD, List.getElem?_set_self h]
  rfl

/-- Other slots are unchanged by updateNodeAt. -/
theorem getD_updateNodeAt_ne (nl : List Node) (i j : Nat) (f : Node → Node)
    (h : i ≠ j) :
    (updateNodeAt nl i f).getD j default = nl.getD j default := by
  unfold updateNodeAt
  rw [List.getD_eq_getElem?_getD, List.getElem?_set_ne h, ← List.getD_eq_getElem?_getD]

/-- Probing is unaffected by an insert that lands in a different slot. -/
theorem probe_insert_of_index_ne (t : HashTable ℝ) (h1 h : Nat) (v : ℝ)
    (hne : index h1 t.data.length ≠ index h t.data.length) :
    (t.insert h1 v).probe h = t.probe h := by
  unfold HashTable.probe HashTable.insert
  simp only [List.length_set]
  rw [List.getElem?_set_ne hne]

/-- Probing is unaffected by a whole backup run whose hashes all land in
slots different from the probed one. -/
theorem backup_probe_untouched (l : List PathEntry) :
    ∀ (s : TreeState) (u : ℝ) (h : Nat),
      (∀ e ∈ l, index e.hash s.hash_table.data.length ≠
          index h s.hash_table.data.length) →
      (backup s l u).hash_table.probe h = s.hash_table.probe h := by
  induction l with
  | nil => intro s u h _; rfl
  | cons e rest ih =>
      intro s u h hne
      simp only [backup]
      rw [ih]
      · exact probe_insert_of_index_ne _ _ _ _ (hne e (by simp))
      · intro e2 he2
        have : (HashTable.insert s.hash_table e.hash u).data.length =
            s.hash_table.data.length := by simp [HashTable.insert]
        rw [this]
        exact hne e2 (by simp [he2])

/-- Core backup characterization on a leaf-first path list. -/
theorem backup_run_spec (l : List PathEntry) :
    ∀ (s : TreeState) (u : ℝ),
      (l.map PathEntry.ptr).Nodup →
      (∀ e ∈ l, e.ptr < s.node_list.length) →
      (∀ e ∈ l, e.hash < 2 ^ 64) →
      0 < s.hash_table.data.length →
      s.hash_table.data.length ≤ 2 ^ 64 →
      (l.map (fun e => index e.hash s.hash_table.data.length)).Nodup →
      (∀ i : Nat, i ∉ l.map PathEntry.ptr →
          (backup s l u).node_list.getD i default = s.node_list.getD i default) ∧
      ∀ k : Nat, ∀ hk : k < l.length,
          ((backup s l u).node_list.getD (l.get ⟨k, hk⟩).ptr default).visits =
              (s.node_list.getD (l.get ⟨k, hk⟩).ptr default).visits + 1 ∧
          ((backup s l u).node_list.getD (l.get ⟨k, hk⟩).ptr default).total_score =
              (s.node_list.getD (l.get ⟨k, hk⟩).ptr default).total_score +
                flip_iter (k + 1) u ∧
          (backup s l u).hash_table.probe (l.get ⟨k, hk⟩).hash =
            some (flip_iter k u) := by
  induction l with
  | nil =>
      intro s u _ _ _ _ _ _
      exact ⟨fun i _ => rfl, fun k hk => absurd hk (by simp)⟩
  | cons e rest ih =>
      intro s u hnodup hptr hhash hcap hcap64 hidx
      have hnodup2 : (rest.map PathEntry.ptr).Nodup :=
        (List.nodup_cons.mp (by simpa using hnodup)).2
      have heptr : e.ptr ∉ rest.map PathEntry.ptr :=
        (List.nodup_cons.mp (by simpa using hnodup)).1
      have hidx2 : (rest.map (fun x => index x.hash s.hash_table.data.length)).Nodup :=
        (List.nodup_cons.mp (by simpa using hidx)).2
      have heidx : index e.hash s.hash_table.data.length ∉
          rest.map (fun x => index x.hash s.hash_table.data.length) :=
        (List.nodup_cons.mp (by simpa using hidx)).1
      -- the state after processing the leaf entry
      set s2 : TreeState :=
        ⟨updateNodeAt s.node_list e.ptr (fun n => n.update_stats (1 - u)),
         s.hash_table.insert e.hash u⟩ with hs2
      have hlen2 : s2.node_list.length = s.node_list.length := by
        simp [hs2, updateNodeAt]
      have hclen2 : s2.hash_table.data.length = s.hash_table.data.length := by
        simp [hs2, HashTable.insert]
      have hstep : backup s (e :: rest) u = backup s2 rest (1 - u) := rfl
      have ihres := ih s2 (1 - u) hnodup2
        (fun x hx => hlen2 ▸ hptr x (by simp [hx]))
        (fun x hx => hhash x (by simp [hx]))
        (by rw [hclen2]; exact hcap)
        (by rw [hclen2]; exact hcap64)
        (by rw [hclen2]; exact hidx2)
      constructor
      · intro i hi
        have hie : i ≠ e.ptr := by
          intro hcontra
          exact hi (by simp [hcontra])
        have hirest : i ∉ rest.map PathEntry.ptr := fun hc => hi (by simp [hc])
        rw [hstep, ihres.1 i hirest, hs2]
        exact getD_updateNodeAt_ne s.node_list e.ptr i
          (fun n => n.update_stats (1 - u)) (fun hc => hie hc.symm)
      · intro k hk
        match k with
        | 0 =>
            have heb : e.ptr < s.node_list.length := hptr e (by simp)
            have hgete : ((e :: rest).get ⟨0, hk⟩) = e := rfl
            rw [hstep, hgete]
            have hnode : (backup s2 rest (1 - u)).node_list.getD e.ptr default =
                s2.node_list.getD e.ptr default := ihres.1 e.ptr heptr
            have hupd : s2.node_list.getD e.ptr default =
                (s.node_list.getD e.ptr default).update_stats (1 - u) := by
              rw [hs2]
              exact getD_updateNodeAt_self s.node_list e.ptr
                (fun n => n.update_stats (1 - u)) heb
            refine ⟨?_, ?_, ?_⟩
            · rw [hnode, hupd]; rfl
            · rw [hnode, hupd]; rfl
            · have hprobe : (backup s2 rest (1 - u)).hash_table.probe e.hash =
                  s2.hash_table.probe e.hash := by
                apply backup_probe_untouched
                intro e2 he2
                rw [hclen2]
                intro hcontra
                exact heidx (by
                  simp only [List.mem_map]
                  exact ⟨e2, he2, hcontra⟩)
              rw [hprobe, hs2]
              have hicap : index e.hash s.hash_table.data.length <
                  s.hash_table.data.length :=
                (c10_index_in_bounds e.hash s.hash_table.data.length
                  (hhash e (by simp)) hcap hcap64).1
              show (s.hash_table.insert e.hash u).probe e.hash = some (flip_iter 0 u)
              unfold HashTable.probe HashTable.insert
              simp only [List.length_set]
              rw [List.getElem?_set_self hicap]
              simp [flip_iter]
        | k + 1 =>
            have hk2 : k < rest.length := by simpa using hk
            have hgete : ((e :: rest).get ⟨k + 1, hk⟩) = rest.get ⟨k, hk2⟩ := rfl
            rw [hstep, hgete]
            have hrmem : rest.get ⟨k, hk2⟩ ∈ rest := List.get_mem rest k hk2
            have hne : e.ptr ≠ (rest.get ⟨k, hk2⟩).ptr := by
              intro hcontra
              exact heptr (by
                simp only [List.mem_map]
                exact ⟨rest.get ⟨k, hk2⟩, hrmem, hcontra.symm⟩)
            have hbase : s2.node_list.getD (rest.get ⟨k, hk2⟩).ptr default =
                s.node_list.getD (rest.get ⟨k, hk2⟩).ptr default := by
              rw [hs2]
              exact getD_updateNodeAt_ne s.node_list e.ptr (rest.get ⟨k, hk2⟩).ptr
                (fun n => n.update_stats (1 - u)) hne
            have := ihres.2 k hk2
            rw [hbase] at this
            exact this

/-- Claim C2: walking the recorded path leaf-first, each backup step inserts
the current value into the transposition cache under the node's recorded
hash, flips the value, and adds the flipped value to exactly that node's
statistics (visits + 1, total_score + flipped value); nodes off the path are
untouched.  Hypotheses: the path visits pairwise distinct arena slots (it is
a root-to-leaf walk of a tree), hashes are 64-bit, the cache is nonempty with
at most 2^64 slots, and the recorded hashes map to pairwise distinct cache
slots (so later cache writes do not evict earlier ones). -/
theorem c2_backup_correct (s : TreeState) (path : List PathEntry) (u : ℝ)
    (hnodup : (path.map PathEntry.ptr).Nodup)
    (hptr : ∀ e ∈ path, e.ptr < s.node_list.length)
    (hhash : ∀ e ∈ path, e.hash < 2 ^ 64)
    (hcap : 0 < s.hash_table.data.length)
    (hcap64 : s.hash_table.data.length ≤ 2 ^ 64)
    (hidx : (path.map (fun e => index e.hash s.hash_table.data.length)).Nodup) :
    BackupSpec s path u := by
  have hrev := backup_run_spec path.reverse s u
    (by simp only [List.map_reverse, List.nodup_reverse]; exact hnodup)
    (fun e he => hptr e (List.mem_reverse.mp he))
    (fun e he => hhash e (List.mem_reverse.mp he))
    hcap hcap64
    (by simp only [List.map_reverse, List.nodup_reverse]; exact hidx)
  constructor
  · intro i hi
    exact hrev.1 i (by
      simp only [List.map_reverse, List.mem_reverse]
      intro hc
      exact hi hc)
  · exact hrev.2

/-- Witness for C2: a two-node tree, the path descending root (slot 0) to
leaf (slot 1), with hashes landing in the two distinct slots of a two-entry
cache. -/
theorem c2_backup_correct_witness :
    BackupSpec
      ⟨[default, default], ⟨[default, default]⟩⟩
      [⟨0, 0, 0⟩, ⟨1, 2 ^ 63, 5⟩] 1 :=
  c2_backup_correct _ _ _ (by decide) (by decide) (by decide) (by decide)
    (by decide) (by decide)

/-- Default (zeroed) nodes satisfy the invariant. -/
theorem nodeInv_default : NodeInv (default : Node) := by
  refine ⟨le_refl 0, le_refl 0, ?_, fun _ => rfl⟩
  show (0 : ℝ) ≤ ((0 : ℤ) : ℝ)
  simp

/-- Membership form of the invariant survives getD lookups. -/
theorem nodeInv_getD (nl : List Node) (i : Nat)
    (h : ∀ n ∈ nl, NodeInv n) : NodeInv (nl.getD i default) := by
  by_cases hi : i < nl.length
  · rw [List.getD_eq_getElem?_getD, List.getElem?_eq_getElem hi]
    exact h _ (List.getElem_mem hi)
  · rw [List.getD_eq_getElem?_getD, List.getElem?_eq_none (by omega)]
    exact nodeInv_default

/-- Claim C7: node statistics invariants hold at creation and are preserved
by every statistics update with a value in [0,1], hence by the whole backup
phase of a playout whose leaf value lies in [0,1]. -/
theorem c7_node_invariants :
    (∀ (gs : GameState) (m : Move) (p : ℝ), NodeInv (Node.new gs m p)) ∧
    (∀ (n : Node) (u : ℝ), 0 ≤ u → u ≤ 1 → NodeInv n →
        NodeInv (n.update_stats u)) ∧
    (∀ (l : List PathEntry) (s : TreeState) (u : ℝ), 0 ≤ u → u ≤ 1 →
        (∀ n ∈ s.node_list, NodeInv n) →
        ∀ n ∈ (backup s l u).node_list, NodeInv n) := by
  have hnew : ∀ (gs : GameState) (m : Move) (p : ℝ), NodeInv (Node.new gs m p) := by
    intro gs m p
    refine ⟨le_refl 0, le_refl 0, ?_, fun _ => rfl⟩
    show (0 : ℝ) ≤ ((0 : ℤ) : ℝ)
    simp
  have hupd : ∀ (n : Node) (u : ℝ), 0 ≤ u → u ≤ 1 → NodeInv n →
      NodeInv (n.update_stats u) := by
    rintro n u hu0 hu1 ⟨hv, hs0, hsv, hz⟩
    simp only [NodeInv, Node.update_stats]
    refine ⟨by omega, by linarith, ?_, ?_⟩
    · push_cast
      linarith
    · intro hzero
      exfalso
      omega
  refine ⟨hnew, hupd, ?_⟩
  intro l
  induction l with
  | nil => intro s u _ _ hall n hn; exact hall n hn
  | cons e rest ih =>
      intro s u hu0 hu1 hall n hn
      refine ih _ (1 - u) (by linarith) (by linarith) ?_ n hn
      intro n2 hn2
      rcases List.mem_or_eq_of_mem_set hn2 with hmem | heq
      · exact hall n2 hmem
      · rw [heq]
        exact hupd _ _ (by linarith) (by linarith) (nodeInv_getD _ _ hall)

/-- Witness for C7 at concrete inputs: a fresh node, one update, and a
one-step backup starting from zeroed state with leaf value 0. -/
theorem c7_node_invariants_witness :
    NodeInv (Node.new GameState.Ongoing 0 1) ∧
      NodeInv ((Node.new GameState.Ongoing 0 1).update_stats 0) ∧
      ∀ n ∈ (backup ⟨[default], ⟨[default]⟩⟩ [⟨0, 0, 0⟩] 0).node_list, NodeInv n :=
  ⟨c7_node_invariants.1 GameState.Ongoing 0 1,
   c7_node_invariants.2.1 _ 0 (le_refl 0) zero_le_one
     (c7_node_invariants.1 GameState.Ongoing 0 1),
   c7_node_invariants.2.2 [⟨0, 0, 0⟩] ⟨[default], ⟨[default]⟩⟩ 0 (le_refl 0)
     zero_le_one (by
       intro n hn
       simp only [List.mem_singleton] at hn
       rw [hn]
       exact nodeInv_default)⟩

/-- On a nonempty list, max_by returns the last element attaining the
maximal key. -/
theorem max_by_last_argmax (f : α → ℝ) (x : α) (xs : List α) :
    ∃ r, max_by f (x :: xs) = some r ∧
      ∃ l1 l2, x :: xs = l1 ++ r :: l2 ∧
        (∀ y ∈ x :: xs, f y ≤ f r) ∧ ∀ y ∈ l2, f y < f r := by
  induction xs using List.reverseRecOn with
  | nil =>
      refine ⟨x, rfl, [], [], rfl, ?_, by simp⟩
      intro y hy
      rw [List.mem_singleton] at hy
      rw [hy]
  | append_singleton ys y ih =>
      obtain ⟨r, hr, l1, l2, hsplit, hmax, hlast⟩ := ih
      have hr2 : ys.foldl (fun acc z => if f acc > f z then acc else z) x = r := by
        have := hr
        unfold max_by at this
        exact Option.some.inj this
      by_cases hgt : f r > f y
      · refine ⟨r, ?_, l1, l2 ++ [y], ?_, ?_, ?_⟩
        · show some (List.foldl (fun acc z => if f acc > f z then acc else z) x
              (ys ++ [y])) = some r
          rw [List.foldl_append, hr2]
          simp only [List.foldl]
          rw [if_pos hgt]
        · rw [show x :: (ys ++ [y]) = (x :: ys) ++ [y] from rfl, hsplit]
          simp [List.append_assoc]
        · intro z hz
          rw [show x :: (ys ++ [y]) = (x :: ys) ++ [y] from rfl, List.mem_append] at hz
          rcases hz with hz | hz
          · exact hmax z hz
          · rw [List.mem_singleton] at hz
            rw [hz]
            exact le_of_lt hgt
        · intro z hz
          rw [List.mem_append] at hz
          rcases hz with hz | hz
          · exact hlast z hz
          · rw [List.mem_singleton] at hz
            rw [hz]
            exact hgt
      · push_neg at hgt
        refine ⟨y, ?_, x :: ys, [], ?_, ?_, by simp⟩
        · show some (List.foldl (fun acc z => if f acc > f z then acc else z) x
              (ys ++ [y])) = some y
          rw [List.foldl_append, hr2]
          simp only [List.foldl]
          rw [if_neg (not_lt.mpr hgt)]
        · simp
        · intro z hz
          rw [show x :: (ys ++ [y]) = (x :: ys) ++ [y] from rfl, List.mem_append] at hz
          rcases hz with hz | hz
          · exact le_trans (hmax z hz) hgt
          · rw [List.mem_singleton] at hz
            rw [hz]

/-- Claim C1 (amended): for a parent with positive visits and at least one
child, select_action returns the child maximizing the PUCT score
q + CPUCT * policy * sqrt(N) / (1 + n), with first-play urgency
1 - parent_total/parent_visits for unvisited children, and when several
children tie it returns the LAST such child in child-block order. -/
theorem c1_select_action_last_argmax (nl : List Node) (ptr : Nat)
    (hch : (nl.getD ptr default).has_children = true)
    (hvis : 0 < (nl.getD ptr default).visits) :
    SelectsLastArgmax nl ptr := by
  have hch2 := hch
  unfold Node.has_children at hch2
  rw [Bool.and_eq_true] at hch2
  obtain ⟨hnum, hsome⟩ := hch2
  obtain ⟨fc, hfc⟩ : ∃ fc, (nl.getD ptr default).first_child = some fc := by
    cases hx : (nl.getD ptr default).first_child with
    | none => rw [hx] at hsome; exact absurd hsome (by simp)
    | some fc => exact ⟨fc, rfl⟩
  have hnum2 : 0 < (nl.getD ptr default).num_children := of_decide_eq_true hnum
  obtain ⟨n2, hn2⟩ : ∃ n2, (nl.getD ptr default).num_children = n2 + 1 :=
    ⟨(nl.getD ptr default).num_children - 1, by omega⟩
  have hchildren : (nl.getD ptr default).children =
      fc :: List.range' (fc + 1) n2 := by
    unfold Node.children
    rw [hfc, hn2]
    exact List.range'_succ fc n2 1
  obtain ⟨r, hr, l1, l2, hsplit, hmax, hlast⟩ :=
    max_by_last_argmax
      (fun c => puct (nl.getD ptr default) (nl.getD c default))
      fc (List.range' (fc + 1) n2)
  refine ⟨r, ?_, l1, l2, ?_, ?_, ?_⟩
  · unfold select_action
    rw [hchildren]
    exact hr
  · rw [hchildren]; exact hsplit
  · rw [hchildren]; exact hmax
  · exact hlast

/-- Witness for C1 (amended) at the concrete tied arena below. -/
theorem c1_select_action_last_argmax_witness :
    SelectsLastArgmax c1Nodes 0 :=
  c1_select_action_last_argmax c1Nodes 0 (by decide) (by decide)

/-- Counterexample to claim C1 as stated: with both children tied (their
stored records are equal except for the move, and the score ignores the
move), select_action returns child slot 2, not the first tying child 1. -/
theorem c1_counterexample :
    select_action c1Nodes 0 = some 2 ∧
      (c1Nodes.getD 0 default).children = [1, 2] ∧
      puct (c1Nodes.getD 0 default) (c1Nodes.getD 1 default) =
        puct (c1Nodes.getD 0 default) (c1Nodes.getD 2 default) := by
  have hch : (c1Nodes.getD 0 default).children = [1, 2] := by
    decide
  have hpe : puct (c1Nodes.getD 0 default) (c1Nodes.getD 1 default) =
      puct (c1Nodes.getD 0 default) (c1Nodes.getD 2 default) := by
    unfold puct
    norm_num [c1Nodes, Node.new, Node.q]
  refine ⟨?_, hch, hpe⟩
  unfold select_action
  rw [hch]
  unfold max_by
  simp only [List.foldl]
  simp only [hpe, gt_iff_lt, lt_irrefl, if_false]

/-- Claim C3 (amended): for every position with at least one legal move,
policies returns exactly one entry per legal move, the probability of move m
is exp(r(m)) / sum of exp over legal moves for the source's raw score
r(m) = 1/L + 0.05 * see(m, -100) + 0.05 * see(m, 1), and the probabilities
sum to 1 in exact arithmetic. -/
theorem c3_policies_amended (legal_moves : List Move) (see : Move → ℤ → Bool)
    (hne : legal_moves ≠ []) :
    PoliciesCorrect legal_moves see := by
  have htpos : 0 < (legal_moves.map fun m2 =>
      Real.exp (raw_policy legal_moves see m2)).sum := by
    apply List.sum_pos
    · intro a ha
      rw [List.mem_map] at ha
      obtain ⟨m2, _, hm2⟩ := ha
      rw [← hm2]
      exact Real.exp_pos _
    · simpa using hne
  refine ⟨?_, ?_, ?_⟩
  · unfold policies
    rw [List.map_map]
    show legal_moves.map (fun m => m) = legal_moves
    exact List.map_id legal_moves
  · intro k hk
    unfold policies
    rw [List.getD_eq_getElem?_getD, List.getElem?_map,
      List.getElem?_eq_getElem hk]
    simp [List.get_eq_getElem]
  · unfold policies
    rw [List.map_map]
    have hcomp : (Prod.snd ∘ fun m =>
        (m, Real.exp (raw_policy legal_moves see m) /
          (legal_moves.map fun m2 =>
            Real.exp (raw_policy legal_moves see m2)).sum)) =
        fun m => Real.exp (raw_policy legal_moves see m) *
          ((legal_moves.map fun m2 =>
            Real.exp (raw_policy legal_moves see m2)).sum)⁻¹ := by
      funext m
      simp [div_eq_mul_inv]
    rw [hcomp, List.sum_map_mul_right]
    exact mul_inv_cancel₀ (ne_of_gt htpos)

/-- Witness for C3 (amended) at a single-move position with an opaque see
that always reports failure. -/
theorem c3_policies_amended_witness :
    PoliciesCorrect [0] (fun _ _ => false) :=
  c3_policies_amended [0] (fun _ _ => false) (by decide)

/-- Counterexample to claim C3 as stated: with two legal moves, one passing
both SEE tests and one passing neither, the source's probability for the
first move is exp(0.6) / (exp(0.6) + exp(0.5)) but the claimed formula gives
exp(2) / (exp(2) + 1); these differ because the source scales the SEE terms
by 0.05 (and adds a uniform 1/L term) instead of using unit weights. -/
theorem c3_counterexample :
    ((policies [0, 1] c3See).getD 0 (0, 0)).2 ≠
      ((policiesSpec [0, 1] c3See).getD 0 (0, 0)).2 := by
  have hcode : ((policies [0, 1] c3See).getD 0 (0, 0)).2 =
      Real.exp (3 / 5) / (Real.exp (3 / 5) + Real.exp (1 / 2)) := by
    unfold policies raw_policy c3See
    norm_num
  have hspec : ((policiesSpec [0, 1] c3See).getD 0 (0, 0)).2 =
      Real.exp 2 / (Real.exp 2 + 1) := by
    unfold policiesSpec c3See
    norm_num
  rw [hcode, hspec]
  intro hcontra
  have ha : (0 : ℝ) < Real.exp (3 / 5) + Real.exp (1 / 2) := by positivity
  have hb : (0 : ℝ) < Real.exp 2 + 1 := by positivity
  rw [div_eq_div_iff (ne_of_gt ha) (ne_of_gt hb)] at hcontra
  have hexp : Real.exp (3 / 5) = Real.exp (1 / 2) * Real.exp 2 := by
    linear_combination hcontra
  rw [← Real.exp_add] at hexp
  have := Real.exp_eq_exp.mp hexp
  norm_num at this

/-- Claim C4 (amended): a node whose stored game_state is not Ongoing is
never expanded — should_expand rejects it and the descent iteration leaves
it (and hence its first_child) unchanged; but start_search unconditionally
overwrites the root's game_state with Ongoing, so the root installed for a
terminal position does NOT retain its non-Ongoing state. -/
theorem c4_terminal_never_expanded :
    (∀ n : Node, n.should_expand = true → n.game_state = GameState.Ongoing) ∧
      (∀ (n : Node) (path_full : Bool) (fc nc : Nat),
        n.game_state ≠ GameState.Ongoing → descent_expand n path_full fc nc = n) ∧
      ∀ n : Node,
        (n.set_game_state GameState.Ongoing).game_state = GameState.Ongoing := by
  refine ⟨?_, ?_, fun n => rfl⟩
  · intro n h
    unfold Node.should_expand at h
    rw [Bool.and_eq_true, decide_eq_true_eq] at h
    exact h.1
  · intro n path_full fc nc h
    unfold descent_expand Node.is_terminal GameState.is_terminal
    rw [decide_eq_true h]
    rfl

/-- Witness for C4 (amended) at a concrete drawn node. -/
theorem c4_terminal_never_expanded_witness :
    descent_expand (Node.new GameState.Draw Move.NULL 1) false 3 2 =
      Node.new GameState.Draw Move.NULL 1 :=
  c4_terminal_never_expanded.2.1 (Node.new GameState.Draw Move.NULL 1) false 3 2
    (by decide)

/-- Counterexample to the root part of claim C4 as stated: a root node
latched from a terminal (drawn) position has its game_state forced to
Ongoing by start_search, after which, once visited, the descent loop does
expand it — its first_child does not remain None. -/
theorem c4_root_counterexample :
    (Node.new GameState.Draw Move.NULL 1).game_state ≠ GameState.Ongoing ∧
      ((Node.new GameState.Draw Move.NULL 1).set_game_state
          GameState.Ongoing).game_state = GameState.Ongoing ∧
      (descent_expand
          (((Node.new GameState.Draw Move.NULL 1).set_game_state
            GameState.Ongoing).update_stats 1) false 5 3).first_child = some 5 := by
  refine ⟨by decide, rfl, ?_⟩
  decide

/-- Claim C6 (amended): full characterization of tree reuse and root
installation, for an arena with a recorded previous search, a valid root
pointer, and at least one slot. -/
theorem c6_reuse_tree_behavior [DecidableEq Board]
    (make_move : Board → Move → Board) (game_state_of : Board → GameState)
    (a : ReuseArena Board) (board prev : Board) (root : Nat)
    (hprev : a.previous_board = some prev) (hroot : a.root = some root)
    (hlen : 0 < a.node_list.length) :
    ReuseBehavior make_move game_state_of a board prev root := by
  have hrt : reuse_tree make_move a board =
      match reuse_scan make_move a prev board root with
      | none => Except.ok none
      | some c2 =>
          if (a.node c2).has_children then Except.ok (some c2)
          else Except.error () := by
    unfold reuse_tree
    rw [hprev, hroot]
  refine ⟨?_, ?_, ?_, ?_⟩
  · -- miss iff no visited grandchild reconstructs the position
    cases hscan : reuse_scan make_move a prev board root with
    | none =>
        have hcase : reuse_tree make_move a board = Except.ok none := by
          rw [hrt, hscan]
        rw [hcase]
        simp only [true_iff]
        unfold reuse_scan at hscan
        rw [List.findSome?_eq_none_iff] at hscan
        intro c1 hc1 hv1 c2 hc2 hv2 heq
        have h1 := hscan c1 (by
          rw [List.mem_filter]
          exact ⟨hc1, decide_eq_true hv1⟩)
        rw [List.find?_eq_none] at h1
        have h2 := h1 c2 (by
          rw [List.mem_filter]
          exact ⟨hc2, decide_eq_true hv2⟩)
        exact h2 (decide_eq_true heq)
    | some c2 =>
        have hcase : reuse_tree make_move a board =
            (if (a.node c2).has_children then Except.ok (some c2)
              else Except.error ()) := by
          rw [hrt, hscan]
        rw [hcase]
        constructor
        · intro hcontra
          by_cases hch : (a.node c2).has_children
          · rw [if_pos hch] at hcontra
            exact absurd hcontra (by simp)
          · rw [if_neg hch] at hcontra
            exact absurd hcontra (by simp)
        · intro hall
          exfalso
          unfold reuse_scan at hscan
          obtain ⟨c1, hc1mem, hfind⟩ := List.exists_of_findSome?_eq_some hscan
          rw [List.mem_filter] at hc1mem
          have hc2mem := List.find?_some hfind
          have hc2in := List.mem_of_find?_eq_some hfind
          rw [List.mem_filter] at hc2in
          exact hall c1 hc1mem.1 (of_decide_eq_true hc1mem.2) c2 hc2in.1
            (of_decide_eq_true hc2in.2) (of_decide_eq_true hc2mem)
  · -- hit with children: promotion
    intro c2 hhit hne hlt
    have hch : (a.node c2).has_children = true := by
      cases hscan : reuse_scan make_move a prev board root with
      | none =>
          have hcase : reuse_tree make_move a board = Except.ok none := by
            rw [hrt, hscan]
          rw [hcase] at hhit
          exact absurd hhit (by simp)
      | some c =>
          have hcase : reuse_tree make_move a board =
              (if (a.node c).has_children then Except.ok (some c)
                else Except.error ()) := by
            rw [hrt, hscan]
          rw [hcase] at hhit
          by_cases h : (a.node c).has_children
          · rw [if_pos h] at hhit
            simp only [Except.ok.injEq, Option.some.injEq] at hhit
            rw [← hhit]
            exact h
          · rw [if_neg h] at hhit
            exact absurd hhit (by simp)
    have hsomene : (some c2 : Option Nat) ≠ a.root := by
      rw [hroot]
      intro hcontra
      exact hne (Option.some.inj hcontra)
    have hrun : start_search_root make_move game_state_of a board =
        Except.ok
          ⟨updateNodeAt (updateNodeAt a.node_list c2 Node.make_root) c2
              (fun n => n.set_game_state GameState.Ongoing),
            some c2, a.previous_board⟩ := by
      unfold start_search_root
      rw [hhit]
      simp only [hch, Bool.not_true]
      rw [if_neg Bool.false_ne_true, if_pos hsomene]
    have hlen1 : c2 < (updateNodeAt a.node_list c2 Node.make_root).length := by
      unfold updateNodeAt
      rw [List.length_set]
      exact hlt
    have hnode :
        ((updateNodeAt (updateNodeAt a.node_list c2 Node.make_root) c2
            (fun n => n.set_game_state GameState.Ongoing)).getD c2 default) =
          ((a.node c2).make_root).set_game_state GameState.Ongoing := by
      rw [getD_updateNodeAt_self _ _ _ hlen1,
        getD_updateNodeAt_self _ _ _ hlt]
      rfl
    refine ⟨_, hrun, rfl, ?_, ?_, ?_, ?_, ?_⟩
    · show ((updateNodeAt (updateNodeAt a.node_list c2 Node.make_root) c2
          (fun n => n.set_game_state GameState.Ongoing)).getD c2 default).m =
        Move.NULL
      rw [hnode]
      rfl
    · show ((updateNodeAt (updateNodeAt a.node_list c2 Node.make_root) c2
          (fun n => n.set_game_state GameState.Ongoing)).getD c2 default).policy = 1
      rw [hnode]
      rfl
    · show ((updateNodeAt (updateNodeAt a.node_list c2 Node.make_root) c2
          (fun n => n.set_game_state GameState.Ongoing)).getD c2 default).visits =
        (a.node c2).visits
      rw [hnode]
      rfl
    · show ((updateNodeAt (updateNodeAt a.node_list c2 Node.make_root) c2
          (fun n => n.set_game_state GameState.Ongoing)).getD c2 default).total_score =
        (a.node c2).total_score
      rw [hnode]
      rfl
    · intro i hi
      show ((updateNodeAt (updateNodeAt a.node_list c2 Node.make_root) c2
          (fun n => n.set_game_state GameState.Ongoing)).getD i default) = a.node i
      rw [getD_updateNodeAt_ne _ _ _ _ (fun hc => hi hc.symm),
        getD_updateNodeAt_ne _ _ _ _ (fun hc => hi hc.symm)]
      rfl
  · -- miss: reset and fresh root in slot 0
    intro hmiss
    have hrun : start_search_root make_move game_state_of a board =
        Except.ok
          ⟨updateNodeAt ((List.replicate a.node_list.length default).set 0
                (Node.new (game_state_of board) Move.NULL 1)) 0
              (fun n => n.set_game_state GameState.Ongoing),
            some 0, a.previous_board⟩ := by
      unfold start_search_root
      rw [hmiss]
      rfl
    have hrlen : 0 < ((List.replicate a.node_list.length default).set 0
        (Node.new (game_state_of board) Move.NULL 1)).length := by
      rw [List.length_set, List.length_replicate]
      exact hlen
    have hnode0 :
        ((updateNodeAt ((List.replicate a.node_list.length default).set 0
              (Node.new (game_state_of board) Move.NULL 1)) 0
            (fun n => n.set_game_state GameState.Ongoing)).getD 0 default) =
          (Node.new (game_state_of board) Move.NULL 1).set_game_state
            GameState.Ongoing := by
      rw [getD_updateNodeAt_self _ _ _ hrlen]
      have hset : ((List.replicate a.node_list.length default).set 0
          (Node.new (game_state_of board) Move.NULL 1)).getD 0 default =
          Node.new (game_state_of board) Move.NULL 1 := by
        rw [List.getD_eq_getElem?_getD, List.getElem?_set_self (by
          rw [List.length_replicate]; exact hlen)]
        rfl
      rw [hset]
    refine ⟨_, hrun, rfl, ?_, ?_, ?_, ?_, ?_, ?_, ?_⟩
    · exact congrArg Node.visits hnode0
    · exact congrArg Node.total_score hnode0
    · exact congrArg Node.m hnode0
    · exact congrArg Node.policy hnode0
    · exact congrArg Node.first_child hnode0
    · show (updateNodeAt ((List.replicate a.node_list.length default).set 0
          (Node.new (game_state_of board) Move.NULL 1)) 0
          (fun n => n.set_game_state GameState.Ongoing)).length =
        a.node_list.length
      unfold updateNodeAt
      rw [List.length_set, List.length_set, List.length_replicate]
    · intro i hi
      show ((updateNodeAt ((List.replicate a.node_list.length default).set 0
          (Node.new (game_state_of board) Move.NULL 1)) 0
          (fun n => n.set_game_state GameState.Ongoing)).getD i default) = default
      rw [getD_updateNodeAt_ne _ _ _ _ (fun hc => hi hc.symm),
        List.getD_eq_getElem?_getD, List.getElem?_set_ne (fun hc => hi hc.symm)]
      by_cases hilen : i < a.node_list.length
      · rw [List.getElem?_replicate_of_lt hilen]
        rfl
      · rw [List.getElem?_eq_none (by rw [List.length_replicate]; omega)]
        rfl
  · -- hit on a childless grandchild: the assertion trips
    intro c2 hscan hchf
    have hcase : reuse_tree make_move a board =
        (if (a.node c2).has_children then Except.ok (some c2)
          else Except.error ()) := by
      rw [hrt, hscan]
    rw [hcase, if_neg (by rw [hchf]; exact Bool.false_ne_true)]

/-- Witness for C6 (amended) on the concrete arena. -/
theorem c6_reuse_tree_behavior_witness :
    ReuseBehavior (fun (b m : Nat) => b + m) (fun _ => GameState.Ongoing)
      c6Arena 3 0 0 :=
  c6_reuse_tree_behavior (fun (b m : Nat) => b + m) (fun _ => GameState.Ongoing)
    c6Arena 3 0 0 rfl rfl (by decide)

/-- Counterexample to claim C6 as stated: a visited grandchild whose
two-move reconstruction equals the searched position exists (slots 1 and 2,
moves 1 and 2, position 3), so the claim says the reuse hit promotes it to
the root with its statistics kept; but the grandchild has no children and the
source's assertion visits > 0 && has_children fails, aborting the search
instead. -/
theorem c6_counterexample :
    reuse_tree (fun (b m : Nat) => b + m) c6Arena 3 = Except.error () ∧
      ∃ c1 ∈ (c6Arena.node 0).children, 0 < (c6Arena.node c1).visits ∧
        ∃ c2 ∈ (c6Arena.node c1).children, 0 < (c6Arena.node c2).visits ∧
          ((0 + (c6Arena.node c1).m) + (c6Arena.node c2).m = 3) := by
  refine ⟨rfl, 1, by decide, by decide, 2, by decide, by decide, by decide⟩

end Engine

